import Mathlib

/-!
Shallow embedding of the wavelet ledger execution core (package wavelet,
src/unnamed/part_000) and of the peer protocol handlers (package node,
src/api/context.go), used to check the specification's claims.

Bytes are lists of naturals; the byte values never overflow in the
operations modelled here. Store mutation is modelled by threading the
key-value state through the functions. Hex decoding of transaction senders
happens at the Go boundary, so transactions carry the decoded sender bytes.
-/

namespace Wavelet

/-- Byte strings. -/
abbrev Bytes := List Nat

/-- Errors of the execution engine. The Go code builds errors with
errors.Errorf; distinct messages are modelled as distinct constructors.
fuelExhausted is a modelling artifact: the Go loop in applyTransaction has
no fuel bound. -/
inductive Err where
  | notFound (key : Bytes)
  | ioFailure
  | nopSenderMissing (sender : Bytes)
  | processorError (code : Nat)
  | senderUnknown (sender : Bytes)
  | fuelExhausted
deriving DecidableEq

deriving instance DecidableEq for Except

/-- A transaction as used by part_000: the decoded sender public key, the
tag string, and the nonce (database.Transaction fields Sender, Tag, Nonce). -/
structure Transaction where
  sender : Bytes
  tag : String
  nonce : Nat
deriving DecidableEq

/-- A state delta emitted by a processor; the fields referenced by part_000
are Account, Key and NewValue. -/
structure Delta where
  account : Bytes
  key : Bytes
  newValue : Bytes
deriving DecidableEq

/-- The persistent account state map (spec 4.2): Store(k, v) returns a new
version and the old one stays valid. Modelled as an association list where
the most recent binding wins. -/
abbrev AccState := List (Bytes × Bytes)

def stateStore (st : AccState) (k v : Bytes) : AccState := (k, v) :: st

def stateGet (st : AccState) (k : Bytes) : Option Bytes :=
  (st.find? fun p => p.1 == k).map Prod.snd

/-- An account record: public key, nonce and versioned state. -/
structure Account where
  publicKey : Bytes
  nonce : Nat
  state : AccState
deriving DecidableEq

/-- Modelled from the spec: NewAccount (the Account constructor is not under
src/); a fresh account for a key has nonce 0 and empty state (spec section 3,
and scenario 2 of section 8: a synthesized sender ends at nonce 1 after the
increment). -/
def NewAccount (key : Bytes) : Account := ⟨key, 0, []⟩

/-- The key-value store backing the ledger state. failPut injects write
failures so that store IO errors (spec section 7) can be modelled; a failing
put leaves the data unchanged and reports an error. -/
structure KV where
  data : List (Bytes × Account)
  failPut : Bytes → Bool

def merge (b key : Bytes) : Bytes := b ++ key

def BucketAccounts : Bytes := [97, 99, 99, 111, 117, 110, 116, 95]

def KV.get (s : KV) (key : Bytes) : Option Account :=
  (s.data.find? fun p => p.1 == key).map Prod.snd

def KV.put (s : KV) (key : Bytes) (value : Account) : KV × Except Err Unit :=
  if s.failPut key then (s, Except.error Err.ioFailure)
  else ({ s with data := (key, value) :: s.data }, Except.ok ())

/-- LoadAccount (part_000 lines 197-211): read the record under the accounts
bucket. In the model stored records decode to themselves and Clone is the
identity on values. -/
def LoadAccount (s : KV) (key : Bytes) : Except Err Account :=
  match s.get (merge BucketAccounts key) with
  | none => Except.error (Err.notFound key)
  | some account => Except.ok account

/-- SaveAccount (part_000 lines 213-222): put under the accounts bucket keyed
by the account's own public key; the deltas argument is unreported (source
TODO) and the put error is returned to the caller. -/
def SaveAccount (s : KV) (account : Account) (_deltas : List Delta) : KV × Except Err Unit :=
  s.put (merge BucketAccounts account.publicKey) account

/-- Modelled from the spec: a registered transaction processor service.
service.Run is not under src/; spec 4.3 gives run(tx) -> (deltas, pending)
or ProcessorError, with the transaction as the only input. -/
structure Service where
  run : Transaction → Except Nat (List Delta × List Transaction)

/-- The service loop of doApplyTransaction (part_000 lines 132-149). In the
Go source the statement inside the loop re-declares (shadows) the outer
deltas slice, and the subsequent append targets the shadowed slice, so the
outer deltas accumulator never receives an element; only
pendingTransactions accumulates across services. -/
def runServicesGo (tx : Transaction) :
    List Service → List Delta → List Transaction → Except Err (List Delta × List Transaction)
  | [], outerDeltas, pendingTransactions => Except.ok (outerDeltas, pendingTransactions)
  | service :: rest, outerDeltas, pendingTransactions =>
    match service.run tx with
    | Except.error code => Except.error (Err.processorError code)
    | Except.ok (_innerDeltas, pending) =>
      runServicesGo tx rest outerDeltas (pendingTransactions ++ pending)

def runServices (services : List Service) (tx : Transaction) :
    Except Err (List Delta × List Transaction) :=
  runServicesGo tx services [] []

def wsLookup (ws : List (Bytes × Account)) (accountID : Bytes) : Option Account :=
  (ws.find? fun p => p.1 == accountID).map Prod.snd

def wsInsert (ws : List (Bytes × Account)) (accountID : Bytes) (account : Account) :
    List (Bytes × Account) :=
  if (ws.find? fun p => p.1 == accountID).isSome then
    ws.map fun p => if p.1 == accountID then (accountID, account) else p
  else ws ++ [(accountID, account)]

def adAppend (ad : List (Bytes × List Delta)) (accountID : Bytes) (change : Delta) :
    List (Bytes × List Delta) :=
  if (ad.find? fun p => p.1 == accountID).isSome then
    ad.map fun p => if p.1 == accountID then (accountID, p.2 ++ [change]) else p
  else ad ++ [(accountID, [change])]

def adLookup (ad : List (Bytes × List Delta)) (accountID : Bytes) : List Delta :=
  ((ad.find? fun p => p.1 == accountID).map Prod.snd).getD []

/-- The delta loop of doApplyTransaction (part_000 lines 166-184): bring each
delta's target account into the working set (loading it, or synthesizing a
fresh one when it is absent from the store), apply the state change, and
record the delta per account. -/
def deltaLoop (s : KV) :
    List Delta → List (Bytes × Account) → List (Bytes × List Delta) →
    List (Bytes × Account) × List (Bytes × List Delta)
  | [], ws, ad => (ws, ad)
  | change :: rest, ws, ad =>
    let accountID := change.account
    let account :=
      match wsLookup ws accountID with
      | some account => account
      | none =>
        match LoadAccount s accountID with
        | Except.ok account => account
        | Except.error _ => NewAccount accountID
    let account' := { account with state := stateStore account.state change.key change.newValue }
    deltaLoop s rest (wsInsert ws accountID account') (adAppend ad accountID change)

/-- Increment the sender's nonce in the working set (part_000 line 187). -/
def incNonce (ws : List (Bytes × Account)) (senderID : Bytes) : List (Bytes × Account) :=
  ws.map fun p => if p.1 == senderID then (p.1, { p.2 with nonce := p.2.nonce + 1 }) else p

/-- Save every working-set account (part_000 lines 190-192); the source
discards SaveAccount's error, so only the store component is kept. -/
def saveAll (s : KV) : List (Bytes × Account) → List (Bytes × List Delta) → KV
  | [], _ => s
  | (accountID, account) :: rest, ad =>
    saveAll (SaveAccount s account (adLookup ad accountID)).1 rest ad

/-- Steps 4 to 7 of do_apply (part_000 lines 151-192) once the sender has
been resolved: seed the working set with the sender, run the delta loop,
increment the sender's nonce, and save every working-set account. -/
def commitWorkingSet (s : KV) (senderID : Bytes) (sender : Account) (deltas : List Delta) : KV :=
  match deltaLoop s deltas [(senderID, sender)] [] with
  | (ws, accountDeltas) => saveAll s (incNonce ws senderID) accountDeltas

def saveIgnoringError (s : KV) (account : Account) (deltas : List Delta) : KV :=
  (SaveAccount s account deltas).1

/-- doApplyTransaction (part_000 lines 112-195). -/
def doApplyTransaction (services : List Service) (s : KV) (tx : Transaction) :
    KV × Except Err (List Transaction) :=
  if tx.tag = "nop" then
    match LoadAccount s tx.sender with
    | Except.error _ => (s, Except.error (Err.nopSenderMissing tx.sender))
    | Except.ok account =>
      (saveIgnoringError s { account with nonce := account.nonce + 1 } [], Except.ok [])
  else
    match runServices services tx with
    | Except.error e => (s, Except.error e)
    | Except.ok (deltas, pendingTransactions) =>
      match LoadAccount s tx.sender with
      | Except.ok sender =>
        (commitWorkingSet s tx.sender sender deltas, Except.ok pendingTransactions)
      | Except.error _ =>
        if tx.nonce = 0 then
          (commitWorkingSet s tx.sender (NewAccount tx.sender) deltas,
           Except.ok pendingTransactions)
        else (s, Except.error (Err.senderUnknown tx.sender))

/-- applyTransaction (part_000 lines 88-106): breadth-first drain of a work
queue. Store mutation is threaded; the middle component records the order in
which transactions were successfully applied (pure instrumentation: the Go
function returns only the error), and fuel bounds the unbounded Go loop. -/
def applyTransactionAux (services : List Service) :
    Nat → KV → List Transaction → KV × List Transaction × Option Err
  | _, s, [] => (s, [], none)
  | 0, s, _ :: _ => (s, [], some Err.fuelExhausted)
  | fuel + 1, s, tx :: rest =>
    match doApplyTransaction services s tx with
    | (s1, Except.error e) => (s1, [], some e)
    | (s1, Except.ok newTxs) =>
      match applyTransactionAux services fuel s1 (rest ++ newTxs) with
      | (s2, applied, r) => (s2, tx :: applied, r)

def applyTransaction (services : List Service) (fuel : Nat) (s : KV) (tx : Transaction) :
    KV × List Transaction × Option Err :=
  applyTransactionAux services fuel s [tx]

def storedNonce (s : KV) (pk : Bytes) : Option Nat :=
  (s.get (merge BucketAccounts pk)).map fun account => account.nonce

/-- No injected store write failures. -/
def goodPut (s : KV) : Prop := ∀ key, s.failPut key = false

/-- Store well-formedness: every record sits under the accounts-bucket key of
its own public key, that is, what LoadAccount decodes is what SaveAccount
wrote there. -/
def storeWF (s : KV) : Prop :=
  ∀ p ∈ s.data, p.1 = merge BucketAccounts p.2.publicKey

/-- Children of a transaction in the pending-transaction tree: what a
successful doApplyTransaction returns for it (a nop yields none; otherwise
the pending transactions collected over the services). -/
def childrenOf (services : List Service) (tx : Transaction) : List Transaction :=
  if tx.tag = "nop" then []
  else
    match runServices services tx with
    | Except.ok (_, pending) => pending
    | Except.error _ => []

def genStep (c : Transaction → List Transaction) : List Transaction → List Transaction
  | [] => []
  | tx :: rest => c tx ++ genStep c rest

/-- The d-th generation of the tree rooted at the queue q. -/
def genAt (c : Transaction → List Transaction) : Nat → List Transaction → List Transaction
  | 0, q => q
  | d + 1, q => genAt c d (genStep c q)

/-- Concatenation of the first d generations: the level (breadth-first)
order of the tree rooted at the queue q. -/
def levelConcat (c : Transaction → List Transaction) : Nat → List Transaction → List Transaction
  | 0, _ => []
  | d + 1, q => q ++ levelConcat c d (genStep c q)

/-- Queue-driven breadth-first enumeration with fuel. -/
def bfsAux (c : Transaction → List Transaction) : Nat → List Transaction → List Transaction
  | 0, _ => []
  | _ + 1, [] => []
  | fuel + 1, tx :: rest => tx :: bfsAux c fuel (rest ++ c tx)

def syncChunkSize : Nat := 1048576

def chunkifyAux : Nat → List Nat → List (List Nat)
  | _, [] => []
  | 0, _ :: _ => []
  | fuel + 1, x :: xs =>
    (x :: xs).take syncChunkSize :: chunkifyAux fuel ((x :: xs).drop syncChunkSize)

/-- The chunking loop of handleSyncDiffMetadataRequest (context.go lines
308-319): consecutive slices of at most syncChunkSize bytes. The fuel of
chunkifyAux is the diff length, which bounds the number of chunks. -/
def chunkify (diff : List Nat) : List (List Nat) := chunkifyAux diff.length diff

def joinList : List (List Nat) → List Nat
  | [] => []
  | chunk :: rest => chunk ++ joinList rest

/-- Modelled from the spec: the per-peer LRU chunk cache (newLRU, put and
load are not under src/); spec 4.6 describes a capacity-bounded hash-to-bytes
map in which the most recently inserted entries survive eviction. -/
structure Lru where
  cap : Nat
  entries : List (Bytes × List Nat)

def Lru.put (cache : Lru) (key : Bytes) (value : List Nat) : Lru :=
  { cache with
    entries := ((key, value) :: cache.entries.filter fun p => !(p.1 == key)).take cache.cap }

def Lru.load (cache : Lru) (key : Bytes) : Option (List Nat) :=
  (cache.entries.find? fun p => p.1 == key).map Prod.snd

def cacheWellHashed (h : List Nat → Bytes) (cache : Lru) : Prop :=
  ∀ p ∈ cache.entries, p.1 = h p.2

/-- The hash-and-cache loop of handleSyncDiffMetadataRequest: blake2b-256 is
an external pure primitive (spec section 1), passed as h. -/
def metadataLoop (h : List Nat → Bytes) :
    List (List Nat) → Lru → List Bytes × Lru
  | [], cache => ([], cache)
  | chunk :: rest, cache =>
    match metadataLoop h rest (cache.put (h chunk) chunk) with
    | (hashes, cache') => (h chunk :: hashes, cache')

/-- handleSyncDiffMetadataRequest (context.go lines 303-327); DumpDiff is an
external ledger operation, passed as a function of the requested view id,
and the response carries the latest view id with the ordered chunk hashes. -/
def handleSyncDiffMetadataRequest (h : List Nat → Bytes) (dumpDiff : Nat → List Nat)
    (latestViewID : Nat) (cache : Lru) (reqViewID : Nat) : (Nat × List Bytes) × Lru :=
  match metadataLoop h (chunkify (dumpDiff reqViewID)) cache with
  | (chunkHashes, cache') => ((latestViewID, chunkHashes), cache')

structure SyncDiffChunkResponse where
  found : Bool
  diff : List Nat
deriving DecidableEq

/-- handleSyncDiffChunkRequest (context.go lines 329-348). -/
def handleSyncDiffChunkRequest (cache : Lru) (reqChunkHash : Bytes) : SyncDiffChunkResponse :=
  match cache.load reqChunkHash with
  | some chunk => ⟨true, chunk⟩
  | none => ⟨false, []⟩

/-- A wavelet.Transaction as seen by the node handlers: its id and view id. -/
structure NodeTx where
  id : Bytes
  viewID : Nat
deriving DecidableEq

structure SyncerState where
  preferred : Option NodeTx
  recorded : List (Bytes × Bytes)
deriving DecidableEq

/-- handleSyncViewRequest (context.go lines 350-376). AssertValidTransaction
and the syncer internals are not under src/: validity is an abstract
predicate, and recordRootFromAccount is modelled from the spec (record the
peer's root for future quorum decisions) as appending the pair. The deferred
send transmits the response root computed so far in every path, including the
early return on an invalid peer root. -/
def handleSyncViewRequest (valid : NodeTx → Bool) (ledgerRoot : NodeTx) (ledgerViewID : Nat)
    (sy : SyncerState) (peer : Bytes) (reqRoot : NodeTx) : NodeTx × SyncerState :=
  let resRoot :=
    match sy.preferred with
    | none => ledgerRoot
    | some preferred => preferred
  if valid reqRoot = false then (resRoot, sy)
  else if ledgerViewID < reqRoot.viewID ∧ sy.preferred = none then
    (reqRoot, { preferred := some reqRoot, recorded := sy.recorded ++ [(peer, reqRoot.id)] })
  else (resRoot, { sy with recorded := sy.recorded ++ [(peer, reqRoot.id)] })

structure QueryResponse where
  preferred : Option NodeTx
deriving DecidableEq

/-- handleQueryRequest (context.go lines 378-407). ReceiveTransaction and the
resolver are not under src/: they are modelled from the spec as an abstract
ledger state transformer recvTx returning the new state and whether the vote
was VoteAccepted. View ids are u64, so the comparison against ViewID()-1
wraps modulo 2^64. -/
def handleQueryRequest {L : Type} (recvTx : L → NodeTx → L × Bool) (paused : Bool)
    (ledgerViewID : Nat) (ledgerRoot : NodeTx) (resolverPreferred : Option NodeTx)
    (st : L) (reqTx : NodeTx) : QueryResponse × L :=
  if paused then (⟨none⟩, st)
  else
    let res : QueryResponse :=
      if reqTx.viewID = (ledgerViewID + (2 ^ 64 - 1)) % 2 ^ 64 then ⟨some ledgerRoot⟩
      else
        match resolverPreferred with
        | some preferred => ⟨some preferred⟩
        | none => ⟨none⟩
    match recvTx st reqTx with
    | (st', accepted) => if accepted then (⟨some reqTx⟩, st') else (res, st')

/-- An empty store with no injected write failures. -/
def kvEmpty : KV := ⟨[], fun _ => false⟩

/-- A store holding one account (public key 0x01, nonce 0). -/
def kv1 : KV := ⟨[(merge BucketAccounts [1], ⟨[1], 0, []⟩)], fun _ => false⟩

/-- A store holding one account whose key rejects writes: every put for the
account under public key 0x01 fails. -/
def kvB : KV :=
  ⟨[(merge BucketAccounts [1], ⟨[1], 5, []⟩)], fun key => key == merge BucketAccounts [1]⟩

/-- A service that emits one delta targeting account 0x02 and no pending
transactions, for exercising the delta path. -/
def svcC1 : Service := ⟨fun _ => Except.ok ([⟨[2], [10], [20]⟩], [])⟩

def txC1 : Transaction := ⟨[1], "transfer", 0⟩

/-- A service that, on a transfer, emits one pending nop whose sender 0x02
does not exist, for exercising failure after a committed prefix. -/
def svcC2 : Service :=
  ⟨fun tx =>
    if tx.tag == "transfer" then Except.ok ([], [⟨[2], "nop", 0⟩]) else Except.ok ([], [])⟩

def txC2 : Transaction := ⟨[1], "transfer", 0⟩

/-- A service producing a two-generation pending tree: a spawns b and c, and
b spawns d. -/
def svcC6 : Service :=
  ⟨fun tx =>
    if tx.tag == "a" then Except.ok ([], [⟨[2], "b", 0⟩, ⟨[3], "c", 0⟩])
    else if tx.tag == "b" then Except.ok ([], [⟨[4], "d", 0⟩])
    else Except.ok ([], [])⟩

def txC6 : Transaction := ⟨[1], "a", 0⟩

/-- In runServicesGo a successful run returns the delta accumulator exactly
as it was seeded: the Go shadowing keeps the outer slice untouched. -/
theorem runServicesGo_ok_deltas (tx : Transaction) :
    ∀ (services : List Service) (ds : List Delta) (ps : List Transaction)
      (ds' : List Delta) (ps' : List Transaction),
      runServicesGo tx services ds ps = Except.ok (ds', ps') → ds' = ds := by
  intro services
  induction services with
  | nil =>
    intro ds ps ds' ps' h
    simp [runServicesGo] at h
    exact h.1.symm
  | cons sv rest ih =>
    intro ds ps ds' ps' h
    cases hr : sv.run tx with
    | error code => simp [runServicesGo, hr] at h
    | ok dp =>
      obtain ⟨dsInner, pending⟩ := dp
      simp only [runServicesGo, hr] at h
      exact ih ds (ps ++ pending) ds' ps' h

/-- The delta list of a successful runServices is always empty. -/
theorem runServices_ok_deltas (services : List Service) (tx : Transaction)
    (ds : List Delta) (ps : List Transaction)
    (h : runServices services tx = Except.ok (ds, ps)) : ds = [] :=
  runServicesGo_ok_deltas tx services [] [] ds ps h

/-- A record found under the accounts-bucket key of k in a well-formed store
carries k as its public key. -/
theorem get_publicKey (s : KV) (k : Bytes) (acc : Account) (hwf : storeWF s)
    (h : s.get (merge BucketAccounts k) = some acc) : acc.publicKey = k := by
  unfold KV.get at h
  cases hf : s.data.find? (fun p => p.1 == merge BucketAccounts k) with
  | none => rw [hf] at h; simp at h
  | some p =>
    rw [hf] at h
    simp at h
    have hpred := List.find?_some hf
    have hkey : p.1 = merge BucketAccounts k := by simpa using hpred
    have hw := hwf p (List.mem_of_find?_eq_some hf)
    have hmm : merge BucketAccounts p.2.publicKey = merge BucketAccounts k := by
      rw [← hw, hkey]
    simp only [merge] at hmm
    have h2 : p.2.publicKey = k := List.append_cancel_left hmm
    rw [← h]
    exact h2

/-- Committing an empty delta list saves exactly the sender with its nonce
incremented, prepended to the store data. -/
theorem commit_nil (s : KV) (pk : Bytes) (acc : Account) (hgood : goodPut s) :
    commitWorkingSet s pk acc [] =
      { s with data := (merge BucketAccounts acc.publicKey,
          { acc with nonce := acc.nonce + 1 }) :: s.data } := by
  have hgoodF : ∀ key, s.failPut key = false := hgood
  have hstep : incNonce [(pk, acc)] pk = [(pk, { acc with nonce := acc.nonce + 1 })] := by
    simp [incNonce]
  unfold commitWorkingSet
  simp only [deltaLoop]
  rw [hstep]
  simp [saveAll, adLookup, SaveAccount, KV.put, hgoodF]

/-- Every error path of doApplyTransaction leaves the store untouched. -/
theorem doApply_error_unchanged (services : List Service) (s : KV) (tx : Transaction) (e : Err)
    (h : (doApplyTransaction services s tx).2 = Except.error e) :
    (doApplyTransaction services s tx).1 = s := by
  by_cases htag : tx.tag = "nop"
  · cases hl : LoadAccount s tx.sender with
    | error e2 => simp [doApplyTransaction, htag, hl]
    | ok acc => simp [doApplyTransaction, htag, hl] at h
  · cases hr : runServices services tx with
    | error e2 => simp [doApplyTransaction, htag, hr]
    | ok dp =>
      obtain ⟨ds, ps⟩ := dp
      cases hl : LoadAccount s tx.sender with
      | ok sender => simp [doApplyTransaction, htag, hr, hl] at h
      | error e2 =>
        by_cases hn : tx.nonce = 0
        · simp [doApplyTransaction, htag, hr, hl, hn] at h
        · simp [doApplyTransaction, htag, hr, hl, hn]

/-- Case analysis of doApplyTransaction on a healthy store: it either fails
leaving the store unchanged, or commits exactly the sender record with its
nonce incremented (loaded, or synthesized at nonce 0); the delta loop never
contributes because the service loop drops every delta. -/
theorem doApply_cases (services : List Service) (s : KV) (tx : Transaction)
    (hgood : goodPut s) (hwf : storeWF s) :
    (∃ e, doApplyTransaction services s tx = (s, Except.error e)) ∨
    (∃ acc pend, s.get (merge BucketAccounts tx.sender) = some acc ∧
      doApplyTransaction services s tx =
        ({ s with data := (merge BucketAccounts tx.sender,
            { acc with nonce := acc.nonce + 1 }) :: s.data }, Except.ok pend)) ∨
    (∃ pend, s.get (merge BucketAccounts tx.sender) = none ∧ tx.nonce = 0 ∧
      doApplyTransaction services s tx =
        ({ s with data := (merge BucketAccounts tx.sender,
            (⟨tx.sender, 1, []⟩ : Account)) :: s.data }, Except.ok pend)) := by
  have hgoodF : ∀ key, s.failPut key = false := hgood
  by_cases htag : tx.tag = "nop"
  · cases hget : s.get (merge BucketAccounts tx.sender) with
    | none =>
      left
      exact ⟨Err.nopSenderMissing tx.sender, by
        simp [doApplyTransaction, htag, LoadAccount, hget]⟩
    | some acc =>
      right; left
      have hpk : acc.publicKey = tx.sender := get_publicKey s tx.sender acc hwf hget
      refine ⟨acc, [], rfl, ?_⟩
      simp [doApplyTransaction, htag, LoadAccount, hget, saveIgnoringError, SaveAccount,
        KV.put, hgoodF, hpk]
  · cases hr : runServices services tx with
    | error e => exact Or.inl ⟨e, by simp [doApplyTransaction, htag, hr]⟩
    | ok dp =>
      obtain ⟨ds, ps⟩ := dp
      have hds : ds = [] := runServices_ok_deltas services tx ds ps hr
      subst hds
      cases hget : s.get (merge BucketAccounts tx.sender) with
      | some acc =>
        right; left
        have hpk : acc.publicKey = tx.sender := get_publicKey s tx.sender acc hwf hget
        refine ⟨acc, ps, rfl, ?_⟩
        simp [doApplyTransaction, htag, hr, LoadAccount, hget]
        rw [commit_nil s tx.sender acc hgood, hpk]
      | none =>
        by_cases hn : tx.nonce = 0
        · right; right
          refine ⟨ps, rfl, hn, ?_⟩
          simp [doApplyTransaction, htag, hr, LoadAccount, hget, hn]
          rw [commit_nil s tx.sender (NewAccount tx.sender) hgood]
          simp [NewAccount]
        · left
          exact ⟨Err.senderUnknown tx.sender, by
            simp [doApplyTransaction, htag, hr, LoadAccount, hget, hn]⟩

theorem storedNonce_prepend_self (s : KV) (pk : Bytes) (a : Account) :
    storedNonce { s with data := (merge BucketAccounts pk, a) :: s.data } pk = some a.nonce := by
  simp [storedNonce, KV.get]

theorem storedNonce_prepend_other (s : KV) (pk pk' : Bytes) (a : Account) (hne : pk' ≠ pk) :
    storedNonce { s with data := (merge BucketAccounts pk, a) :: s.data } pk'
      = storedNonce s pk' := by
  have hbeq : (merge BucketAccounts pk == merge BucketAccounts pk') = false := by
    rw [beq_eq_false_iff_ne]
    intro hcontra
    simp only [merge] at hcontra
    exact hne (List.append_cancel_left hcontra).symm
  simp [storedNonce, KV.get, List.find?, hbeq]

/-- The stored nonce of any account does not decrease across one
doApplyTransaction. -/
theorem doApply_nonce_mono (services : List Service) (s : KV) (tx : Transaction)
    (hgood : goodPut s) (hwf : storeWF s) (pk : Bytes) (n : Nat)
    (h : storedNonce s pk = some n) :
    ∃ m, n ≤ m ∧ storedNonce (doApplyTransaction services s tx).1 pk = some m := by
  rcases doApply_cases services s tx hgood hwf with ⟨e, he⟩ | ⟨acc, pend, hget, he⟩ |
    ⟨pend, hget, hn0, he⟩
  · exact ⟨n, le_refl n, by rw [he]; exact h⟩
  · by_cases hpk : pk = tx.sender
    · subst hpk
      have hacc : acc.nonce = n := by simp [storedNonce, hget] at h; omega
      refine ⟨n + 1, by omega, ?_⟩
      rw [he]
      simp [storedNonce_prepend_self, hacc]
    · refine ⟨n, le_refl n, ?_⟩
      rw [he]
      simp [storedNonce_prepend_other s tx.sender pk _ hpk]
      exact h
  · by_cases hpk : pk = tx.sender
    · subst hpk; simp [storedNonce, hget] at h
    · refine ⟨n, le_refl n, ?_⟩
      rw [he]
      simp [storedNonce_prepend_other s tx.sender pk _ hpk]
      exact h

/-- doApplyTransaction preserves the absence of put failures and store
well-formedness. -/
theorem doApply_preserves (services : List Service) (s : KV) (tx : Transaction)
    (hgood : goodPut s) (hwf : storeWF s) :
    goodPut (doApplyTransaction services s tx).1 ∧
      storeWF (doApplyTransaction services s tx).1 := by
  rcases doApply_cases services s tx hgood hwf with ⟨e, he⟩ | ⟨acc, pend, hget, he⟩ |
    ⟨pend, hget, hn0, he⟩
  · rw [he]; exact ⟨hgood, hwf⟩
  · rw [he]
    refine ⟨hgood, ?_⟩
    intro p hp
    rcases List.mem_cons.mp hp with hp1 | hp2
    · subst hp1
      simp [get_publicKey s tx.sender acc hwf hget]
    · exact hwf p hp2
  · rw [he]
    refine ⟨hgood, ?_⟩
    intro p hp
    rcases List.mem_cons.mp hp with hp1 | hp2
    · subst hp1; rfl
    · exact hwf p hp2

/-- The stored nonce of any account does not decrease across a whole
applyTransactionAux run. -/
theorem applyAux_nonce_mono (services : List Service) :
    ∀ (fuel : Nat) (q : List Transaction) (s : KV), goodPut s → storeWF s →
      ∀ (pk : Bytes) (n : Nat), storedNonce s pk = some n →
        ∃ m, n ≤ m ∧ storedNonce (applyTransactionAux services fuel s q).1 pk = some m := by
  intro fuel
  induction fuel with
  | zero =>
    intro q s hg hw pk n h
    cases q with
    | nil => exact ⟨n, le_refl n, h⟩
    | cons t rest => exact ⟨n, le_refl n, by simp [applyTransactionAux]; exact h⟩
  | succ fuel ih =>
    intro q s hg hw pk n h
    cases q with
    | nil => exact ⟨n, le_refl n, h⟩
    | cons t rest =>
      obtain ⟨m1, hle1, hsn1⟩ := doApply_nonce_mono services s t hg hw pk n h
      obtain ⟨hg1, hw1⟩ := doApply_preserves services s t hg hw
      cases hda : doApplyTransaction services s t with
      | mk s1 r =>
        rw [hda] at hsn1 hg1 hw1
        simp at hsn1 hg1 hw1
        cases r with
        | error e =>
          exact ⟨m1, hle1, by simp [applyTransactionAux, hda]; exact hsn1⟩
        | ok newTxs =>
          obtain ⟨m2, hle2, hsn2⟩ := ih (rest ++ newTxs) s1 hg1 hw1 pk m1 hsn1
          cases hrec : applyTransactionAux services fuel s1 (rest ++ newTxs) with
          | mk s2 pr =>
            rw [hrec] at hsn2
            simp at hsn2
            exact ⟨m2, le_trans hle1 hle2, by simp [applyTransactionAux, hda, hrec]; exact hsn2⟩

/-- When a run of the work queue fails (not by fuel exhaustion), the final
store is exactly the store that entered the failing transaction: the
failing doApplyTransaction left it as it found it. -/
theorem applyAux_error_state (services : List Service) :
    ∀ (fuel : Nat) (s : KV) (q : List Transaction) (e : Err),
      (applyTransactionAux services fuel s q).2.2 = some e → e ≠ Err.fuelExhausted →
      ∃ t, doApplyTransaction services (applyTransactionAux services fuel s q).1 t
        = ((applyTransactionAux services fuel s q).1, Except.error e) := by
  intro fuel
  induction fuel with
  | zero =>
    intro s q e h hne
    cases q with
    | nil => simp [applyTransactionAux] at h
    | cons t rest =>
      simp [applyTransactionAux] at h
      exact absurd h.symm hne
  | succ fuel ih =>
    intro s q e h hne
    cases q with
    | nil => simp [applyTransactionAux] at h
    | cons t rest =>
      cases hda : doApplyTransaction services s t with
      | mk s1 r =>
        cases r with
        | error e1 =>
          simp [applyTransactionAux, hda] at h ⊢
          subst h
          have h2 : (doApplyTransaction services s t).2 = Except.error e1 := by
            rw [hda]
          have h1u : (doApplyTransaction services s t).1 = s :=
            doApply_error_unchanged services s t e1 h2
          rw [hda] at h1u
          simp at h1u
          rw [h1u] at hda
          refine ⟨t, ?_⟩
          rw [h1u]
          exact hda
        | ok newTxs =>
          cases hrec : applyTransactionAux services fuel s1 (rest ++ newTxs) with
          | mk s2 pr =>
            simp [applyTransactionAux, hda, hrec] at h ⊢
            obtain ⟨t2, ht2⟩ := ih s1 (rest ++ newTxs) e (by rw [hrec]; exact h) hne
            rw [hrec] at ht2
            simp at ht2
            exact ⟨t2, ht2⟩

/-- A successful doApplyTransaction returns exactly the children of the
transaction in the pending tree. -/
theorem doApply_ok_children (services : List Service) (s : KV) (tx : Transaction)
    (pend : List Transaction) (h : (doApplyTransaction services s tx).2 = Except.ok pend) :
    pend = childrenOf services tx := by
  by_cases htag : tx.tag = "nop"
  · cases hl : LoadAccount s tx.sender with
    | error e => simp [doApplyTransaction, htag, hl] at h
    | ok acc =>
      simp [doApplyTransaction, htag, hl] at h
      simp [childrenOf, htag, ← h]
  · cases hr : runServices services tx with
    | error e => simp [doApplyTransaction, htag, hr] at h
    | ok dp =>
      obtain ⟨ds, ps⟩ := dp
      cases hl : LoadAccount s tx.sender with
      | ok sender =>
        simp [doApplyTransaction, htag, hr, hl] at h
        simp [childrenOf, htag, hr, ← h]
      | error e =>
        by_cases hn : tx.nonce = 0
        · simp [doApplyTransaction, htag, hr, hl, hn] at h
          simp [childrenOf, htag, hr, ← h]
        · simp [doApplyTransaction, htag, hr, hl, hn] at h

/-- On a successful run, the applied order is the queue-driven breadth-first
enumeration of the pending tree. -/
theorem applyAux_trace_bfs (services : List Service) :
    ∀ (fuel : Nat) (s : KV) (q : List Transaction),
      (applyTransactionAux services fuel s q).2.2 = none →
      (applyTransactionAux services fuel s q).2.1 = bfsAux (childrenOf services) fuel q := by
  intro fuel
  induction fuel with
  | zero =>
    intro s q h
    cases q with
    | nil => simp [applyTransactionAux, bfsAux]
    | cons t rest => simp [applyTransactionAux] at h
  | succ fuel ih =>
    intro s q h
    cases q with
    | nil => simp [applyTransactionAux, bfsAux]
    | cons t rest =>
      cases hda : doApplyTransaction services s t with
      | mk s1 r =>
        cases r with
        | error e => simp [applyTransactionAux, hda] at h
        | ok newTxs =>
          have hch : newTxs = childrenOf services t :=
            doApply_ok_children services s t newTxs (by rw [hda])
          cases hrec : applyTransactionAux services fuel s1 (rest ++ newTxs) with
          | mk s2 pr =>
            simp [applyTransactionAux, hda, hrec] at h ⊢
            have := ih s1 (rest ++ newTxs) (by rw [hrec]; exact h)
            rw [hrec] at this
            simp at this
            rw [this, hch, bfsAux]

theorem bfsAux_nil (c : Transaction → List Transaction) (fuel : Nat) :
    bfsAux c fuel [] = [] := by
  cases fuel <;> simp [bfsAux]

/-- Peeling one whole generation off the front of the queue. -/
theorem bfsAux_peel (c : Transaction → List Transaction) :
    ∀ (q b : List Transaction) (m : Nat),
      bfsAux c (q.length + m) (q ++ b) = q ++ bfsAux c m (b ++ genStep c q) := by
  intro q
  induction q with
  | nil => intro b m; simp [genStep]
  | cons t rest ih =>
    intro b m
    have hq : (t :: rest) ++ b = t :: (rest ++ b) := rfl
    have hlen : (t :: rest).length + m = (rest.length + m) + 1 := by
      simp
      omega
    rw [hq, hlen]
    have hstep : bfsAux c ((rest.length + m) + 1) (t :: (rest ++ b))
        = t :: bfsAux c (rest.length + m) ((rest ++ b) ++ c t) := rfl
    rw [hstep, List.append_assoc, ih (b ++ c t) m]
    simp [genStep, List.append_assoc]

/-- The queue-driven breadth-first enumeration coincides with the level
order once the tree is exhausted and fuel suffices. -/
theorem bfs_levelConcat (c : Transaction → List Transaction) :
    ∀ (d : Nat) (q : List Transaction) (fuel : Nat), genAt c d q = [] →
      (levelConcat c d q).length ≤ fuel → bfsAux c fuel q = levelConcat c d q := by
  intro d
  induction d with
  | zero =>
    intro q fuel hg hl
    simp [genAt] at hg
    subst hg
    simp [levelConcat, bfsAux_nil]
  | succ d ih =>
    intro q fuel hg hl
    simp only [genAt] at hg
    simp only [levelConcat, List.length_append] at hl
    have hfuel : q.length + (fuel - q.length) = fuel := by omega
    have hm : (levelConcat c d (genStep c q)).length ≤ fuel - q.length := by omega
    calc bfsAux c fuel q
        = bfsAux c (q.length + (fuel - q.length)) (q ++ []) := by
          rw [hfuel, List.append_nil]
      _ = q ++ bfsAux c (fuel - q.length) ([] ++ genStep c q) := bfsAux_peel c q [] _
      _ = q ++ levelConcat c d (genStep c q) := by
          rw [List.nil_append, ih _ _ hg hm]
      _ = levelConcat c (d + 1) q := rfl

theorem chunkifyAux_join : ∀ (fuel : Nat) (l : List Nat), l.length ≤ fuel →
    joinList (chunkifyAux fuel l) = l := by
  intro fuel
  induction fuel with
  | zero =>
    intro l hl
    have hnil : l = [] := List.eq_nil_of_length_eq_zero (by omega)
    subst hnil
    rfl
  | succ fuel ih =>
    intro l hl
    cases l with
    | nil => rfl
    | cons x xs =>
      have h2 : ((x :: xs).drop syncChunkSize).length ≤ fuel := by
        simp [syncChunkSize] at *
        omega
      simp only [chunkifyAux, joinList]
      rw [ih _ h2, List.take_append_drop]

theorem chunkifyAux_mem_length : ∀ (fuel : Nat) (l ch : List Nat),
    ch ∈ chunkifyAux fuel l → ch.length ≤ syncChunkSize := by
  intro fuel
  induction fuel with
  | zero =>
    intro l ch h
    cases l <;> simp [chunkifyAux] at h
  | succ fuel ih =>
    intro l ch h
    cases l with
    | nil => simp [chunkifyAux] at h
    | cons x xs =>
      simp only [chunkifyAux] at h
      rcases List.mem_cons.mp h with h1 | h2
      · subst h1
        simp [List.length_take]
      · exact ih _ _ h2

theorem metadataLoop_hashes (h : List Nat → Bytes) :
    ∀ (chunks : List (List Nat)) (cache : Lru),
      (metadataLoop h chunks cache).1 = chunks.map h := by
  intro chunks
  induction chunks with
  | nil => intro cache; rfl
  | cons ch rest ih =>
    intro cache
    have hrest := ih (cache.put (h ch) ch)
    cases hrec : metadataLoop h rest (cache.put (h ch) ch) with
    | mk hs cache' =>
      rw [hrec] at hrest
      simp only [metadataLoop, hrec, List.map_cons]
      simp at hrest
      simp [hrest]

theorem lruPut_wellHashed (h : List Nat → Bytes) (cache : Lru) (chunk : List Nat)
    (hw : cacheWellHashed h cache) : cacheWellHashed h (cache.put (h chunk) chunk) := by
  intro p hp
  simp only [Lru.put] at hp
  have hp2 := List.take_subset _ _ hp
  rcases List.mem_cons.mp hp2 with h1 | h2
  · subst h1; rfl
  · exact hw p (List.mem_filter.mp h2).1

theorem metadataLoop_wellHashed (h : List Nat → Bytes) :
    ∀ (chunks : List (List Nat)) (cache : Lru), cacheWellHashed h cache →
      cacheWellHashed h (metadataLoop h chunks cache).2 := by
  intro chunks
  induction chunks with
  | nil => intro cache hw; exact hw
  | cons ch rest ih =>
    intro cache hw
    have hrest := ih (cache.put (h ch) ch) (lruPut_wellHashed h cache ch hw)
    cases hrec : metadataLoop h rest (cache.put (h ch) ch) with
    | mk hs cache' =>
      rw [hrec] at hrest
      simp only [metadataLoop, hrec]
      exact hrest

/-- A cache hit answers found with the cached bytes, and in a well-hashed
cache those bytes hash back to the requested hash. -/
theorem chunkRequest_found (cache : Lru) (h : List Nat → Bytes) (k : Bytes) (b : List Nat)
    (hw : cacheWellHashed h cache) (hl : cache.load k = some b) :
    handleSyncDiffChunkRequest cache k = ⟨true, b⟩ ∧ h b = k := by
  constructor
  · simp [handleSyncDiffChunkRequest, hl]
  · unfold Lru.load at hl
    cases hf : cache.entries.find? (fun p => p.1 == k) with
    | none => rw [hf] at hl; simp at hl
    | some p =>
      rw [hf] at hl
      simp at hl
      have hpred := List.find?_some hf
      have hkey : p.1 = k := by simpa using hpred
      have hwp := hw p (List.mem_of_find?_eq_some hf)
      rw [← hl, ← hwp, hkey]

/-- C1: for every non-nop transaction, the deltas emitted by the processors
are meant to be applied to the working set so that after a successful commit
the target account's state holds the new value under the delta's key. The
code drops every delta (the service loop shadows the accumulator), so after
a successful apply of a transaction whose only service emitted a delta for
account 0x02, the store has no record for 0x02 at all and the sender was
committed with an empty state: the claimed post-state does not hold. -/
theorem c1_deltas_dropped :
    (doApplyTransaction [svcC1] kvEmpty txC1).2 = Except.ok [] ∧
    KV.get (doApplyTransaction [svcC1] kvEmpty txC1).1 (merge BucketAccounts [2]) = none ∧
    KV.get (doApplyTransaction [svcC1] kvEmpty txC1).1 (merge BucketAccounts [1])
      = some ⟨[1], 1, []⟩ := by decide

/-- C2 counterexample: a transaction whose service emits a pending nop with
an unknown sender. The root transaction commits the synthesized sender
before the pending nop fails, so applyTransaction returns an error while a
record written by the apply call survives in the store. -/
theorem c2_counterexample :
    (applyTransaction [svcC2] 10 kvEmpty txC2).2.2 = some (Err.nopSenderMissing [2]) ∧
    KV.get (applyTransaction [svcC2] 10 kvEmpty txC2).1 (merge BucketAccounts [1])
      = some ⟨[1], 1, []⟩ ∧
    KV.get kvEmpty (merge BucketAccounts [1]) = none := by decide

/-- C2 amended: an error aborts only the failing transaction. Every error
path of doApplyTransaction leaves the store exactly as it found it, and when
a queue run fails (not by fuel exhaustion) the final store is the one that
entered the failing transaction, so writes committed by earlier transactions
of the same apply call survive while the failing transaction contributes
nothing. -/
theorem c2_amended (services : List Service) :
    (∀ (s : KV) (tx : Transaction) (e : Err),
      (doApplyTransaction services s tx).2 = Except.error e →
      (doApplyTransaction services s tx).1 = s) ∧
    (∀ (fuel : Nat) (s : KV) (q : List Transaction) (e : Err),
      (applyTransactionAux services fuel s q).2.2 = some e → e ≠ Err.fuelExhausted →
      ∃ t, doApplyTransaction services (applyTransactionAux services fuel s q).1 t
        = ((applyTransactionAux services fuel s q).1, Except.error e)) :=
  ⟨fun s tx e h => doApply_error_unchanged services s tx e h,
   fun fuel s q e h hne => applyAux_error_state services fuel s q e h hne⟩

theorem c2_amended_witness :
    (doApplyTransaction [] kvEmpty ⟨[7], "nop", 0⟩).1 = kvEmpty ∧
    (∃ t, doApplyTransaction [svcC2] (applyTransactionAux [svcC2] 10 kvEmpty [txC2]).1 t
      = ((applyTransactionAux [svcC2] 10 kvEmpty [txC2]).1,
         Except.error (Err.nopSenderMissing [2]))) :=
  ⟨(c2_amended []).1 kvEmpty ⟨[7], "nop", 0⟩ (Err.nopSenderMissing [7]) (by decide),
   (c2_amended [svcC2]).2 10 kvEmpty [txC2] (Err.nopSenderMissing [2]) (by decide) (by decide)⟩

/-- C3: the claim says a failing store write during commit is surfaced to
the caller as a store error. The code discards SaveAccount's return value
(part_000 lines 127 and 191): on a store whose put for the sender's key
fails, the apply still reports success, even though the underlying put does
return an error. -/
theorem c3_put_error_swallowed :
    (doApplyTransaction [] kvB ⟨[1], "nop", 6⟩).2 = Except.ok [] ∧
    (doApplyTransaction [] kvB ⟨[1], "nop", 6⟩).1.data = kvB.data ∧
    (kvB.put (merge BucketAccounts [1]) ⟨[1], 6, []⟩).2 = Except.error Err.ioFailure := by
  decide

/-- C4 counterexample: the peer's root is not recorded when it fails
validation (first conjunct: the recorded list stays empty), and when
adoption fires the reply is the peer's root, not our root, even though no
preferred root existed (remaining conjuncts). -/
theorem c4_counterexample :
    (handleSyncViewRequest (fun _ => false) ⟨[0], 0⟩ 0 ⟨none, []⟩ [9] ⟨[1], 5⟩).2.recorded
      = [] ∧
    (handleSyncViewRequest (fun _ => true) ⟨[0], 0⟩ 0 ⟨none, []⟩ [9] ⟨[1], 5⟩).1 = ⟨[1], 5⟩ ∧
    (⟨[1], 5⟩ : NodeTx) ≠ ⟨[0], 0⟩ := by decide

/-- C4 amended: on an invalid peer root the handler replies with the
preferred root (or our root if none) and records nothing; on a valid peer
root it always records the peer's root, replies with the preferred root if
one exists, adopts and replies with the peer's root when its view id exceeds
ours and no preferred root exists, and otherwise replies with our root. -/
theorem c4_amended (valid : NodeTx → Bool) (ledgerRoot : NodeTx) (ledgerViewID : Nat)
    (sy : SyncerState) (peer : Bytes) (reqRoot : NodeTx) :
    (valid reqRoot = false →
      handleSyncViewRequest valid ledgerRoot ledgerViewID sy peer reqRoot
        = ((match sy.preferred with | none => ledgerRoot | some p => p), sy)) ∧
    (valid reqRoot = true →
      (handleSyncViewRequest valid ledgerRoot ledgerViewID sy peer reqRoot).2.recorded
        = sy.recorded ++ [(peer, reqRoot.id)] ∧
      (∀ p, sy.preferred = some p →
        handleSyncViewRequest valid ledgerRoot ledgerViewID sy peer reqRoot
          = (p, { sy with recorded := sy.recorded ++ [(peer, reqRoot.id)] })) ∧
      (sy.preferred = none → ledgerViewID < reqRoot.viewID →
        handleSyncViewRequest valid ledgerRoot ledgerViewID sy peer reqRoot
          = (reqRoot, ⟨some reqRoot, sy.recorded ++ [(peer, reqRoot.id)]⟩)) ∧
      (sy.preferred = none → ¬ ledgerViewID < reqRoot.viewID →
        handleSyncViewRequest valid ledgerRoot ledgerViewID sy peer reqRoot
          = (ledgerRoot, { sy with recorded := sy.recorded ++ [(peer, reqRoot.id)] }))) := by
  constructor
  · intro hv
    simp [handleSyncViewRequest, hv]
  · intro hv
    refine ⟨?_, ?_, ?_, ?_⟩
    · by_cases hc : ledgerViewID < reqRoot.viewID ∧ sy.preferred = none
      · simp [handleSyncViewRequest, hv, hc]
      · simp [handleSyncViewRequest, hv, hc]
    · intro p hp
      have hc : ¬ (ledgerViewID < reqRoot.viewID ∧ sy.preferred = none) := by simp [hp]
      simp [handleSyncViewRequest, hv, hc, hp]
    · intro hp hlt
      simp [handleSyncViewRequest, hv, hp, hlt]
    · intro hp hlt
      simp [handleSyncViewRequest, hv, hp, hlt]

theorem c4_amended_witness :
    (handleSyncViewRequest (fun t => decide (t.viewID < 100)) ⟨[0], 0⟩ 0 ⟨none, []⟩ [9]
        ⟨[1], 5⟩).2.recorded = [] ++ [([9], [1])] :=
  ((c4_amended (fun t => decide (t.viewID < 100)) ⟨[0], 0⟩ 0 ⟨none, []⟩ [9] ⟨[1], 5⟩).2
    (by decide)).1

/-- C5: for every transaction applied on a healthy, well-formed store, the
sender's stored nonce after the apply is exactly its previous value plus one
when the transaction is accepted, is unchanged when it is rejected, and the
stored nonce of any account never decreases, both across one
doApplyTransaction and across a whole applyTransaction run. -/
theorem c5_nonce_monotone (services : List Service) (s : KV) (tx : Transaction)
    (hgood : goodPut s) (hwf : storeWF s) :
    (∀ pend n, (doApplyTransaction services s tx).2 = Except.ok pend →
      storedNonce s tx.sender = some n →
      storedNonce (doApplyTransaction services s tx).1 tx.sender = some (n + 1)) ∧
    (∀ e, (doApplyTransaction services s tx).2 = Except.error e →
      (doApplyTransaction services s tx).1 = s) ∧
    (∀ pk n, storedNonce s pk = some n →
      ∃ m, n ≤ m ∧ storedNonce (doApplyTransaction services s tx).1 pk = some m) ∧
    (∀ fuel pk n, storedNonce s pk = some n →
      ∃ m, n ≤ m ∧ storedNonce (applyTransaction services fuel s tx).1 pk = some m) := by
  refine ⟨?_, ?_, ?_, ?_⟩
  · intro pend n hok hn
    rcases doApply_cases services s tx hgood hwf with ⟨e, he⟩ | ⟨acc, pend2, hget, he⟩ |
      ⟨pend2, hget, hn0, he⟩
    · rw [he] at hok; simp at hok
    · have hacc : acc.nonce = n := by simp [storedNonce, hget] at hn; omega
      rw [he]
      simp [storedNonce_prepend_self, hacc]
    · simp [storedNonce, hget] at hn
  · exact fun e he => doApply_error_unchanged services s tx e he
  · exact fun pk n hsn => doApply_nonce_mono services s tx hgood hwf pk n hsn
  · exact fun fuel pk n hsn => applyAux_nonce_mono services fuel [tx] s hgood hwf pk n hsn

theorem c5_nonce_monotone_witness :
    storedNonce (doApplyTransaction [] kv1 ⟨[1], "nop", 0⟩).1 [1] = some 1 :=
  (c5_nonce_monotone [] kv1 ⟨[1], "nop", 0⟩ (fun _ => rfl)
    (by intro p hp; simp [kv1] at hp; subst hp; rfl)).1 [] 0 (by decide) (by decide)

/-- C6: for every transaction whose processors recursively emit pending
transactions, a successful applyTransaction applies the resulting tree in
breadth-first order: whenever the pending tree rooted at the transaction is
exhausted by depth d and the fuel covers it, the applied order is exactly
the concatenation of the generations, the root first, then each generation
in emission order. -/
theorem c6_bfs_order (services : List Service) (fuel d : Nat) (s : KV) (tx : Transaction)
    (hgen : genAt (childrenOf services) d [tx] = [])
    (hfuel : (levelConcat (childrenOf services) d [tx]).length ≤ fuel)
    (hok : (applyTransaction services fuel s tx).2.2 = none) :
    (applyTransaction services fuel s tx).2.1 = levelConcat (childrenOf services) d [tx] := by
  unfold applyTransaction at hok ⊢
  rw [applyAux_trace_bfs services fuel s [tx] hok]
  exact bfs_levelConcat (childrenOf services) d [tx] fuel hgen hfuel

theorem c6_bfs_order_witness :
    (applyTransaction [svcC6] 10 kvEmpty txC6).2.1
      = levelConcat (childrenOf [svcC6]) 3 [txC6] :=
  c6_bfs_order [svcC6] 10 3 kvEmpty txC6 (by decide) (by decide) (by decide)

/-- C7: for every nop transaction on a healthy, well-formed store: if the
sender account exists, the apply increments its nonce by one, saves it, and
returns no pending transactions; if the sender account does not exist
(regardless of the transaction's nonce, including nonce 0), the apply
returns an error and the store is unchanged. -/
theorem c7_nop_semantics (services : List Service) (s : KV) (tx : Transaction)
    (hnop : tx.tag = "nop") (hgood : goodPut s) (hwf : storeWF s) :
    (∀ acc, s.get (merge BucketAccounts tx.sender) = some acc →
      (doApplyTransaction services s tx).1.data
        = (merge BucketAccounts tx.sender, { acc with nonce := acc.nonce + 1 }) :: s.data ∧
      (doApplyTransaction services s tx).2 = Except.ok []) ∧
    (s.get (merge BucketAccounts tx.sender) = none →
      doApplyTransaction services s tx = (s, Except.error (Err.nopSenderMissing tx.sender))) := by
  have hgoodF : ∀ key, s.failPut key = false := hgood
  constructor
  · intro acc hget
    have hpk : acc.publicKey = tx.sender := get_publicKey s tx.sender acc hwf hget
    constructor
    · simp [doApplyTransaction, hnop, LoadAccount, hget, saveIgnoringError, SaveAccount,
        KV.put, hgoodF, hpk]
    · simp [doApplyTransaction, hnop, LoadAccount, hget]
  · intro hget
    simp [doApplyTransaction, hnop, LoadAccount, hget]

theorem c7_nop_semantics_witness :
    ((doApplyTransaction [] kv1 ⟨[1], "nop", 3⟩).1.data
      = (merge BucketAccounts [1], (⟨[1], 1, []⟩ : Account)) :: kv1.data ∧
      (doApplyTransaction [] kv1 ⟨[1], "nop", 3⟩).2 = Except.ok []) ∧
    doApplyTransaction [] kvEmpty ⟨[7], "nop", 0⟩
      = (kvEmpty, Except.error (Err.nopSenderMissing [7])) :=
  ⟨(c7_nop_semantics [] kv1 ⟨[1], "nop", 3⟩ rfl (fun _ => rfl)
      (by intro p hp; simp [kv1] at hp; subst hp; rfl)).1 ⟨[1], 0, []⟩ (by decide),
   (c7_nop_semantics [] kvEmpty ⟨[7], "nop", 0⟩ rfl (fun _ => rfl)
      (by intro p hp; simp [kvEmpty] at hp)).2 (by decide)⟩

/-- C8: for every non-nop transaction whose sender is absent from a healthy
store and whose services run cleanly: at nonce 0 the engine synthesizes a
fresh sender account (committed at nonce 1) and proceeds, returning the
collected pending transactions; at any other nonce the apply fails with the
sender-unknown error and the store is unchanged. -/
theorem c8_sender_synthesis (services : List Service) (s : KV) (tx : Transaction)
    (ds : List Delta) (ps : List Transaction)
    (htag : tx.tag ≠ "nop") (hgood : goodPut s)
    (habs : s.get (merge BucketAccounts tx.sender) = none)
    (hrun : runServices services tx = Except.ok (ds, ps)) :
    (tx.nonce = 0 →
      (doApplyTransaction services s tx).1.data
        = (merge BucketAccounts tx.sender, (⟨tx.sender, 1, []⟩ : Account)) :: s.data ∧
      (doApplyTransaction services s tx).2 = Except.ok ps) ∧
    (tx.nonce ≠ 0 →
      doApplyTransaction services s tx = (s, Except.error (Err.senderUnknown tx.sender))) := by
  have hds : ds = [] := runServices_ok_deltas services tx ds ps hrun
  subst hds
  constructor
  · intro hn
    constructor
    · simp [doApplyTransaction, htag, hrun, LoadAccount, habs, hn]
      rw [commit_nil s tx.sender (NewAccount tx.sender) hgood]
      simp [NewAccount]
    · simp [doApplyTransaction, htag, hrun, LoadAccount, habs, hn]
  · intro hn
    simp [doApplyTransaction, htag, hrun, LoadAccount, habs, hn]

theorem c8_sender_synthesis_witness :
    ((doApplyTransaction [] kvEmpty ⟨[5], "transfer", 0⟩).1.data
      = (merge BucketAccounts [5], (⟨[5], 1, []⟩ : Account)) :: kvEmpty.data ∧
      (doApplyTransaction [] kvEmpty ⟨[5], "transfer", 0⟩).2 = Except.ok []) ∧
    doApplyTransaction [] kvEmpty ⟨[5], "transfer", 3⟩
      = (kvEmpty, Except.error (Err.senderUnknown [5])) :=
  ⟨(c8_sender_synthesis [] kvEmpty ⟨[5], "transfer", 0⟩ [] [] (by decide) (fun _ => rfl)
      (by decide) (by decide)).1 (by decide),
   (c8_sender_synthesis [] kvEmpty ⟨[5], "transfer", 3⟩ [] [] (by decide) (fun _ => rfl)
      (by decide) (by decide)).2 (by decide)⟩

/-- C9: for every sync-diff metadata request, the diff is split into
consecutive chunks (their concatenation is the diff) of at most 1048576
bytes, the returned hashes are exactly the hashes of the chunks in order,
hashing preserves the cache's hash consistency, and a chunk request for a
hash still resident in a hash-consistent cache answers found with bytes
hashing back to the requested hash. -/
theorem c9_chunk_hashes (h : List Nat → Bytes) (dumpDiff : Nat → List Nat)
    (latestViewID : Nat) (cache : Lru) (reqViewID : Nat)
    (hw : cacheWellHashed h cache) :
    joinList (chunkify (dumpDiff reqViewID)) = dumpDiff reqViewID ∧
    (∀ ch ∈ chunkify (dumpDiff reqViewID), ch.length ≤ syncChunkSize) ∧
    (handleSyncDiffMetadataRequest h dumpDiff latestViewID cache reqViewID).1.2
      = (chunkify (dumpDiff reqViewID)).map h ∧
    cacheWellHashed h (handleSyncDiffMetadataRequest h dumpDiff latestViewID cache reqViewID).2 ∧
    (∀ (cache2 : Lru) (k : Bytes) (b : List Nat), cacheWellHashed h cache2 →
      cache2.load k = some b →
      handleSyncDiffChunkRequest cache2 k = ⟨true, b⟩ ∧ h b = k) := by
  refine ⟨chunkifyAux_join _ _ (le_refl _),
    fun ch hch => chunkifyAux_mem_length _ _ ch hch, ?_, ?_, ?_⟩
  · have hh := metadataLoop_hashes h (chunkify (dumpDiff reqViewID)) cache
    cases hrec : metadataLoop h (chunkify (dumpDiff reqViewID)) cache with
    | mk hs cache' =>
      rw [hrec] at hh
      simp at hh
      simp [handleSyncDiffMetadataRequest, hrec, hh]
  · have hh := metadataLoop_wellHashed h (chunkify (dumpDiff reqViewID)) cache hw
    cases hrec : metadataLoop h (chunkify (dumpDiff reqViewID)) cache with
    | mk hs cache' =>
      rw [hrec] at hh
      simp only [handleSyncDiffMetadataRequest, hrec]
      exact hh
  · exact fun cache2 k b hw2 hl => chunkRequest_found cache2 h k b hw2 hl

theorem c9_chunk_hashes_witness :
    cacheWellHashed (fun chunk => chunk) (⟨1024, []⟩ : Lru) ∧
    (handleSyncDiffMetadataRequest (fun chunk => chunk) (fun _ => [1, 2, 3]) 7 ⟨1024, []⟩ 0).1.2
      = (chunkify [1, 2, 3]).map (fun chunk => chunk) :=
  ⟨(by intro p hp; cases hp),
   (c9_chunk_hashes (fun chunk => chunk) (fun _ => [1, 2, 3]) 7 ⟨1024, []⟩ 0
      (by intro p hp; cases hp)).2.2.1⟩

/-- C10: for every query request received while the broadcaster is paused,
the handler answers the zero response (no preferred transaction) and never
invokes receive-transaction: the ledger state is returned unchanged for
every possible receive-transaction behavior. -/
theorem c10_query_paused {L : Type} (recvTx : L → NodeTx → L × Bool) (paused : Bool)
    (ledgerViewID : Nat) (ledgerRoot : NodeTx) (resolverPreferred : Option NodeTx)
    (st : L) (reqTx : NodeTx) (hp : paused = true) :
    handleQueryRequest recvTx paused ledgerViewID ledgerRoot resolverPreferred st reqTx
      = (⟨none⟩, st) := by
  subst hp
  rfl

theorem c10_query_paused_witness :
    handleQueryRequest (fun (st : Nat) (_ : NodeTx) => (st + 1, true)) true 5 ⟨[1], 5⟩
      (some ⟨[2], 6⟩) 0 ⟨[3], 4⟩ = (⟨none⟩, 0) :=
  c10_query_paused (fun st _ => (st + 1, true)) true 5 ⟨[1], 5⟩ (some ⟨[2], 6⟩) 0 ⟨[3], 4⟩ rfl

end Wavelet
